import Mathlib

/-!
Shallow embedding of the page-replacement simulation engines of the
Clock-Algorithm-Page-Replacement-Simulator repository (the two
`algorithm.js` variants: `runClockAlgorithm` and `runLRUAlgorithm`).

Modelling conventions:
* JavaScript numbers holding page identifiers are modelled as `Int`
  (the empty-frame sentinel is the literal `-1`, exactly as in the source);
  counters are `Nat`; the percentage ratios produced by `toFixed(2)` are
  modelled as exact rationals rounded to two decimal places.
* The Clock engine's replacement loop is `while (true)` in the source; it is
  modelled with explicit fuel.  The engine calls it with fuel `2 * frameCount`
  (the bound the scan provably respects whenever `frameCount ≥ 1`), and fuel
  exhaustion (`none`) models the source's non-termination, which happens
  exactly when `frameCount = 0`.
* A JavaScript read of an absent object key yields `undefined`; absent keys
  and `null` values are both modelled as `none` of an `Option` type, and a
  record field that is present in some snapshots but missing in others is
  given an `Option` type.
-/

/-- One snapshot pushed onto `steps` by `runClockAlgorithm`.  The source
object literal has keys `frames`, `useBits`, `pointer`, `page`, `fault`,
`hitIndex`, `faults`, `hits`; the initial snapshot (pushed before the loop)
lacks the `hitIndex` key, hence the `Option` on that field, and `page: null`
on the initial snapshot is `none`. -/
structure ClockStep where
  frames : List Int
  useBits : List Nat
  pointer : Nat
  page : Option Int
  fault : Bool
  hitIndex : Option Int
  faults : Nat
  hits : Nat
  deriving DecidableEq

/-- The snapshots pushed by `runClockAlgorithm` carry no `evictedPage` key at
all (unlike the LRU engine's snapshots).  Reading `step.evictedPage` on such
an object in JavaScript therefore yields `undefined`, i.e. the attribute is
absent; this projection models that read. -/
def ClockStep.evictedPage (_ : ClockStep) : Option Int := none

/-- The mutable run state of `runClockAlgorithm` between two references:
`frames`, `useBits`, `clockPointer` and the two running counters. -/
structure ClockState where
  frames : List Int
  useBits : List Nat
  pointer : Nat
  faults : Nat
  hits : Nat
  deriving DecidableEq

/-- The `while (true)` replacement scan of `runClockAlgorithm` (fuelled).
Returns `(replaced index, use bits after the clears, number of inspections)`.
`bits.getD ptr 1` models the JS read `useBits[clockPointer]`: the default `1`
makes an out-of-range read (JS `undefined`) fail the `=== 0` test, exactly as
in the source, so for `n = 0` the scan never succeeds. -/
def clockScan : Nat → List Nat → Nat → Nat → Option (Nat × List Nat × Nat)
  | 0, _, _, _ => none
  | fuel + 1, bits, ptr, n =>
    if bits.getD ptr 1 = 0 then
      some (ptr, bits, 1)
    else
      match clockScan fuel (bits.set ptr 0) ((ptr + 1) % n) n with
      | some (i, b, c) => some (i, b, c + 1)
      | none => none

/-- Processing of one reference by `runClockAlgorithm`: the hit-detection
loop over the frames, then (on a miss) the replacement scan, and the snapshot
pushed onto `steps`.  `none` models the source looping forever in the scan. -/
def clockProcess (n : Nat) (st : ClockState) (p : Int) : Option ClockStep :=
  if p ∈ st.frames then
    let j := st.frames.indexOf p
    some { frames := st.frames, useBits := st.useBits.set j 1,
           pointer := st.pointer, page := some p, fault := false,
           hitIndex := some (j : Int), faults := st.faults,
           hits := st.hits + 1 }
  else
    match clockScan (2 * n) st.useBits st.pointer n with
    | some (i, b, _) =>
      some { frames := st.frames.set i p, useBits := b.set i 1,
             pointer := (i + 1) % n, page := some p, fault := true,
             hitIndex := some (-1), faults := st.faults + 1, hits := st.hits }
    | none => none

/-- The run state recorded inside a Clock snapshot. -/
def clockStateOf (s : ClockStep) : ClockState :=
  { frames := s.frames, useBits := s.useBits, pointer := s.pointer,
    faults := s.faults, hits := s.hits }

/-- The snapshots pushed by the `for (const page of pages)` loop of
`runClockAlgorithm`, given the state after the initial snapshot. -/
def clockRunSteps : List Int → Nat → ClockState → Option (List ClockStep)
  | [], _, _ => some []
  | p :: ps, n, st =>
    match clockProcess n st p with
    | some s =>
      match clockRunSteps ps n (clockStateOf s) with
      | some rest => some (s :: rest)
      | none => none
    | none => none

/-- The initial snapshot pushed by `runClockAlgorithm` before the loop:
all frames hold the `-1` sentinel, all use bits are `0`, the pointer is `0`,
`page: null`, and the object has no `hitIndex` key. -/
def clockInitialStep (n : Nat) : ClockStep :=
  { frames := List.replicate n (-1), useBits := List.replicate n 0,
    pointer := 0, page := none, fault := false, hitIndex := none,
    faults := 0, hits := 0 }

/-- `((k / total) * 100).toFixed(2)` of the source, modelled exactly over the
rationals: the percentage rounded to two decimal places, and the literal `0`
returned when `total = 0`. -/
def toFixed2 (x : ℚ) : ℚ := (round (x * 100) : ℚ) / 100

/-- The final ratio computation shared by both engines:
`total > 0 ? ((k / total) * 100).toFixed(2) : 0`. -/
def ratioOf (k total : Nat) : ℚ :=
  if total = 0 then 0 else toFixed2 ((k : ℚ) / (total : ℚ) * 100)

/-- The object returned by `runClockAlgorithm`. -/
structure ClockResult where
  steps : List ClockStep
  pageFaults : Nat
  pageHits : Nat
  hitRatio : ℚ
  missRatio : ℚ
  totalSteps : Nat
  deriving DecidableEq

/-- `runClockAlgorithm(pages, frameCount)` of the source.  `none` models the
source never returning (the unbounded scan loops forever, which happens
exactly when `frameCount = 0` and a fault occurs). -/
def runClockAlgorithm (pages : List Int) (frameCount : Nat) : Option ClockResult :=
  match clockRunSteps pages frameCount (clockStateOf (clockInitialStep frameCount)) with
  | none => none
  | some rest =>
    let steps := clockInitialStep frameCount :: rest
    let fin := rest.getLastD (clockInitialStep frameCount)
    some { steps := steps, pageFaults := fin.faults, pageHits := fin.hits,
           hitRatio := ratioOf fin.hits pages.length,
           missRatio := ratioOf fin.faults pages.length,
           totalSteps := steps.length }

/-- One snapshot pushed onto `steps` by `runLRUAlgorithm` (the variant with
`hitIndex` and `evictedPage` keys).  `evictedPage` is `null` (`none`) except
on a fault that evicted a resident page. -/
structure LRUStep where
  frames : List Int
  recency : List Int
  page : Option Int
  fault : Bool
  hitIndex : Int
  faults : Nat
  hits : Nat
  evictedPage : Option Int
  deriving DecidableEq

/-- The mutable run state of `runLRUAlgorithm` between two references. -/
structure LRUState where
  frames : List Int
  recency : List Int
  faults : Nat
  hits : Nat
  deriving DecidableEq

/-- Processing of one reference by `runLRUAlgorithm`, including the snapshot
pushed onto `steps`.

JavaScript corner cases modelled faithfully:
* On a hit the source runs `recency.splice(recency.indexOf(page), 1)`.
  When `page` is not in `recency` (possible only when the reference equals
  the `-1` sentinel), `indexOf` is `-1` and `splice(-1, 1)` removes the LAST
  element of the list (or nothing when it is empty) — hence the `dropLast`
  branch.
* On a fault with no empty frame the source runs `recency.shift()`; on an
  empty list this yields `undefined`, `frames.indexOf(undefined)` is `-1`,
  and `frames[-1] = page` does not change any array index, so the frames are
  unchanged and `evictedPage` is `undefined` (absent).
* `frames.indexOf(lruPage)` when `lruPage` is absent is `-1` and the write
  `frames[-1] = page` changes no array index; `List.set` past the end is
  likewise the identity, so `List.set` at `List.indexOf` models both cases. -/
def lruProcess (st : LRUState) (p : Int) : LRUStep :=
  if p ∈ st.frames then
    { frames := st.frames,
      recency := (if p ∈ st.recency then st.recency.erase p
                  else st.recency.dropLast) ++ [p],
      page := some p, fault := false,
      hitIndex := (st.frames.indexOf p : Int),
      faults := st.faults, hits := st.hits + 1, evictedPage := none }
  else if (-1 : Int) ∈ st.frames then
    { frames := st.frames.set (st.frames.indexOf (-1)) p,
      recency := st.recency ++ [p],
      page := some p, fault := true, hitIndex := -1,
      faults := st.faults + 1, hits := st.hits, evictedPage := none }
  else
    match st.recency with
    | [] =>
      { frames := st.frames, recency := [p],
        page := some p, fault := true, hitIndex := -1,
        faults := st.faults + 1, hits := st.hits, evictedPage := none }
    | lru :: t =>
      { frames := st.frames.set (st.frames.indexOf lru) p,
        recency := t ++ [p],
        page := some p, fault := true, hitIndex := -1,
        faults := st.faults + 1, hits := st.hits, evictedPage := some lru }

/-- The run state recorded inside an LRU snapshot. -/
def lruStateOf (s : LRUStep) : LRUState :=
  { frames := s.frames, recency := s.recency, faults := s.faults, hits := s.hits }

/-- The snapshots pushed by the `for (const page of pages)` loop of
`runLRUAlgorithm`, given the state after the initial snapshot. -/
def lruRunSteps : List Int → LRUState → List LRUStep
  | [], _ => []
  | p :: ps, st =>
    let s := lruProcess st p
    s :: lruRunSteps ps (lruStateOf s)

/-- The initial snapshot pushed by `runLRUAlgorithm` before the loop. -/
def lruInitialStep (n : Nat) : LRUStep :=
  { frames := List.replicate n (-1), recency := [],
    page := none, fault := false, hitIndex := -1,
    faults := 0, hits := 0, evictedPage := none }

/-- The object returned by `runLRUAlgorithm`. -/
structure LRUResult where
  steps : List LRUStep
  pageFaults : Nat
  pageHits : Nat
  hitRatio : ℚ
  missRatio : ℚ
  totalSteps : Nat
  deriving DecidableEq

/-- `runLRUAlgorithm(pages, frameCount)` of the source. -/
def runLRUAlgorithm (pages : List Int) (frameCount : Nat) : LRUResult :=
  let rest := lruRunSteps pages (lruStateOf (lruInitialStep frameCount))
  let steps := lruInitialStep frameCount :: rest
  let fin := rest.getLastD (lruInitialStep frameCount)
  { steps := steps, pageFaults := fin.faults, pageHits := fin.hits,
    hitRatio := ratioOf fin.hits pages.length,
    missRatio := ratioOf fin.faults pages.length,
    totalSteps := steps.length }

/-- The data-model invariant of a Clock run state: both per-frame vectors
have length `frameCount`, every use bit is `0` or `1`, and the pointer is in
range.  (Stated with bounded quantifiers so that it is decidable.) -/
def ClockInv (n : Nat) (st : ClockState) : Prop :=
  st.frames.length = n ∧ st.useBits.length = n ∧
  (∀ b ∈ st.useBits, b = 0 ∨ b = 1) ∧ st.pointer < n

/-- The data-model invariant of an LRU run state: the frames vector has
length `frameCount`, the recency list is duplicate-free, never contains the
`-1` sentinel, and counts every page exactly as often as the frames vector
does.  (Stated with bounded quantifiers so that it is decidable; together
the two count clauses say `recency.count q = frames.count q` for every
`q ≠ -1`.) -/
def LRUInv (n : Nat) (st : LRUState) : Prop :=
  st.frames.length = n ∧ st.recency.Nodup ∧ (-1 : Int) ∉ st.recency ∧
  (∀ q ∈ st.frames, q ≠ -1 → st.recency.count q = st.frames.count q) ∧
  (∀ q ∈ st.recency, st.recency.count q = st.frames.count q)

instance (n : Nat) (st : ClockState) : Decidable (ClockInv n st) := by
  unfold ClockInv; infer_instance

instance (n : Nat) (st : LRUState) : Decidable (LRUInv n st) := by
  unfold LRUInv; infer_instance

/-! ### List helper lemmas -/

lemma count_set_add {α : Type} [BEq α] [LawfulBEq α] [DecidableEq α] :
    ∀ (l : List α) (i : Nat) (a q : α), i < l.length →
      (l.set i a).count q + (if l.getD i a = q then 1 else 0)
        = l.count q + (if a = q then 1 else 0) := by
  intro l
  induction l with
  | nil => intro i a q h; simp at h
  | cons x xs ih =>
    intro i a q h
    cases i with
    | zero =>
      simp only [List.set, List.getD_cons_zero, List.count_cons, beq_iff_eq]
      split_ifs <;> omega
    | succ i =>
      have h' : i < xs.length := by simpa using h
      have := ih i a q h'
      simp only [List.set, List.getD_cons_succ, List.count_cons, beq_iff_eq]
      split_ifs at this ⊢ <;> omega

lemma getD_set_self {α : Type} (l : List α) (i : Nat) (a d : α)
    (h : i < l.length) : (l.set i a).getD i d = a := by
  have h' : i < (l.set i a).length := by simpa using h
  rw [List.getD_eq_getElem _ _ h']
  exact List.getElem_set_self h'

lemma getD_indexOf {α : Type} [DecidableEq α] (l : List α) (a d : α)
    (h : a ∈ l) : l.getD (l.indexOf a) d = a := by
  have h' : l.indexOf a < l.length := List.indexOf_lt_length.mpr h
  rw [List.getD_eq_getElem _ _ h']
  simpa using List.indexOf_get h'

lemma getD_lt_indexOf_ne {α : Type} [DecidableEq α] :
    ∀ (l : List α) (a : α) (k : Nat) (d : α), k < l.indexOf a → l.getD k d ≠ a := by
  intro l
  induction l with
  | nil => intro a k d h; simp [List.indexOf] at h
  | cons x xs ih =>
    intro a k d h
    by_cases hx : x = a
    · simp [List.indexOf_cons, hx] at h
    · rw [List.indexOf_cons] at h
      have hbeq : (x == a) = false := beq_false_of_ne hx
      rw [hbeq] at h
      cases k with
      | zero => simpa using hx
      | succ k =>
        simp only [List.getD_cons_succ]
        exact ih a k d (by simpa using h)

lemma getLastD_eq_getD {α : Type} (l : List α) (d : α) (h : l ≠ []) :
    l.getLastD d = l.getD (l.length - 1) d := by
  have hlen : 0 < l.length := List.length_pos.mpr h
  have h' : l.length - 1 < l.length := by omega
  rw [List.getLastD_eq_getLast?, List.getLast?_eq_getElem?,
    List.getElem?_eq_getElem h', List.getD_eq_getElem _ _ h']
  rfl

/-! ### The Clock replacement scan -/

/-- Full specification of the fuelled replacement scan: with enough fuel
(one more than the number of set use bits) it succeeds, the replaced index
is in range and is the slot reached after `c - 1` pointer advances, the
returned bit vector keeps its length and 0/1-valuedness, the found slot has
use bit 0, and the number of inspections is at most `count 1 + 1`. -/
lemma clockScan_spec :
    ∀ (fuel : Nat) (bits : List Nat) (ptr n : Nat),
      1 ≤ n → bits.length = n → ptr < n → (∀ b ∈ bits, b = 0 ∨ b = 1) →
      bits.count 1 + 1 ≤ fuel →
      ∃ i b c, clockScan fuel bits ptr n = some (i, b, c) ∧ i < n ∧
        b.length = n ∧ (∀ x ∈ b, x = 0 ∨ x = 1) ∧ b.getD i 1 = 0 ∧
        1 ≤ c ∧ c ≤ bits.count 1 + 1 ∧ i = (ptr + (c - 1)) % n := by
  intro fuel
  induction fuel with
  | zero => intro bits ptr n _ _ _ _ hf; omega
  | succ fuel ih =>
    intro bits ptr n hn hlen hptr hbv hf
    by_cases h0 : bits.getD ptr 1 = 0
    · refine ⟨ptr, bits, 1, ?_, hptr, hlen, hbv, h0, le_refl 1, by omega, ?_⟩
      · show clockScan (fuel + 1) bits ptr n = some (ptr, bits, 1)
        unfold clockScan
        rw [if_pos h0]
      · simp [Nat.mod_eq_of_lt hptr]
    · have hptr' : ptr < bits.length := by omega
      have hget : bits.getD ptr 1 = bits[ptr] := List.getD_eq_getElem _ _ hptr'
      have hval : bits[ptr] = 0 ∨ bits[ptr] = 1 := hbv _ (List.getElem_mem hptr')
      have h1 : bits[ptr] = 1 := by
        rcases hval with h | h
        · exact absurd (hget.trans h) h0
        · exact h
      have hcount : (bits.set ptr 0).count 1 + 1 = bits.count 1 := by
        have hc := count_set_add bits ptr 0 1 hptr'
        rw [List.getD_eq_getElem _ _ hptr', h1] at hc
        simpa using hc
      have hlen' : (bits.set ptr 0).length = n := by simpa using hlen
      have hbv' : ∀ x ∈ bits.set ptr 0, x = 0 ∨ x = 1 := by
        intro x hx
        rcases List.mem_or_eq_of_mem_set hx with h | h
        · exact hbv _ h
        · exact Or.inl h
      have hptr2 : (ptr + 1) % n < n := Nat.mod_lt _ (by omega)
      have hf' : (bits.set ptr 0).count 1 + 1 ≤ fuel := by omega
      obtain ⟨i, b, c, heq, hi, hb, hbb, hb0, hc1, hcle, hidx⟩ :=
        ih (bits.set ptr 0) ((ptr + 1) % n) n hn hlen' hptr2 hbv' hf'
      refine ⟨i, b, c + 1, ?_, hi, hb, hbb, hb0, by omega, by omega, ?_⟩
      · show clockScan (fuel + 1) bits ptr n = some (i, b, c + 1)
        unfold clockScan
        rw [if_neg h0, heq]
      · rw [hidx, Nat.mod_add_mod]
        congr 1
        omega

/-! ### Clock engine: per-reference and whole-run lemmas -/

/-- On a miss, `clockProcess` runs the scan with fuel `2 * frameCount`, which
always suffices when `frameCount ≥ 1`: the fault snapshot exists and is built
from the scan result. -/
lemma clockProcess_fault_spec (n : Nat) (st : ClockState) (p : Int)
    (hn : 1 ≤ n) (hI : ClockInv n st) (hres : p ∉ st.frames) :
    ∃ i b c, clockScan (2 * n) st.useBits st.pointer n = some (i, b, c) ∧
      clockProcess n st p =
        some { frames := st.frames.set i p, useBits := b.set i 1,
               pointer := (i + 1) % n, page := some p, fault := true,
               hitIndex := some (-1), faults := st.faults + 1,
               hits := st.hits } ∧
      i < n ∧ b.length = n ∧ (∀ x ∈ b, x = 0 ∨ x = 1) ∧ b.getD i 1 = 0 ∧
      1 ≤ c ∧ c ≤ st.useBits.count 1 + 1 ∧ c ≤ 2 * n ∧
      i = (st.pointer + (c - 1)) % n := by
  obtain ⟨hfl, hul, hbv, hptr⟩ := hI
  have hcle : st.useBits.count 1 ≤ n := hul ▸ List.count_le_length 1 st.useBits
  have hfuel : st.useBits.count 1 + 1 ≤ 2 * n := by omega
  obtain ⟨i, b, c, heq, hi, hb, hbb, hb0, hc1, hcc, hidx⟩ :=
    clockScan_spec (2 * n) st.useBits st.pointer n hn hul hptr hbv hfuel
  refine ⟨i, b, c, heq, ?_, hi, hb, hbb, hb0, hc1, hcc, by omega, hidx⟩
  unfold clockProcess
  rw [if_neg hres, heq]

/-- Every reference is processed successfully when `frameCount ≥ 1`, the
resulting snapshot's state satisfies the invariant again, and exactly one of
the two counters advances. -/
lemma clockProcess_spec (n : Nat) (st : ClockState) (p : Int)
    (hn : 1 ≤ n) (hI : ClockInv n st) :
    ∃ s, clockProcess n st p = some s ∧ ClockInv n (clockStateOf s) ∧
      s.hits + s.faults = st.hits + st.faults + 1 := by
  by_cases hmem : p ∈ st.frames
  · have hs : clockProcess n st p =
        some { frames := st.frames,
               useBits := st.useBits.set (st.frames.indexOf p) 1,
               pointer := st.pointer, page := some p, fault := false,
               hitIndex := some ((st.frames.indexOf p : Nat) : Int),
               faults := st.faults, hits := st.hits + 1 } := by
      unfold clockProcess
      rw [if_pos hmem]
    refine ⟨_, hs, ?_, ?_⟩
    · obtain ⟨hfl, hul, hbv, hptr⟩ := hI
      simp only [ClockInv, clockStateOf]
      refine ⟨hfl, by simpa using hul, ?_, hptr⟩
      intro b hb
      rcases List.mem_or_eq_of_mem_set hb with h | h
      · exact hbv _ h
      · exact Or.inr h
    · simp only []
      omega
  · obtain ⟨i, b, c, _, heq, hi, hb, hbb, _, _, _, _, _⟩ :=
      clockProcess_fault_spec n st p hn hI hmem
    refine ⟨_, heq, ?_, ?_⟩
    · obtain ⟨hfl, hul, hbv, hptr⟩ := hI
      simp only [ClockInv, clockStateOf]
      refine ⟨by simpa using hfl, by simpa using hb, ?_, Nat.mod_lt _ (by omega)⟩
      intro x hx
      rcases List.mem_or_eq_of_mem_set hx with h | h
      · exact hbb _ h
      · exact Or.inr h
    · simp [clockStateOf]; omega

/-- Whole-run lemma for the Clock engine: under the invariant the run always
materialises, produces one snapshot per reference, every snapshot satisfies
the invariant, and the counters of the `i`-th snapshot sum to the number of
references processed. -/
lemma clockRunSteps_spec :
    ∀ (ps : List Int) (st : ClockState) (n : Nat) (d : ClockStep),
      1 ≤ n → ClockInv n st →
      ∃ l, clockRunSteps ps n st = some l ∧ l.length = ps.length ∧
        (∀ s ∈ l, ClockInv n (clockStateOf s)) ∧
        (∀ i, i < ps.length →
          (l.getD i d).hits + (l.getD i d).faults = st.hits + st.faults + i + 1) := by
  intro ps
  induction ps with
  | nil =>
    intro st n d hn hI
    exact ⟨[], rfl, rfl, by simp, by simp⟩
  | cons p ps ih =>
    intro st n d hn hI
    obtain ⟨s, hs, hI', hcnt⟩ := clockProcess_spec n st p hn hI
    obtain ⟨l, hl, hlen, hmem, hcnts⟩ := ih (clockStateOf s) n d hn hI'
    refine ⟨s :: l, ?_, by simpa using hlen, ?_, ?_⟩
    · show clockRunSteps (p :: ps) n st = some (s :: l)
      simp only [clockRunSteps, hs, hl]
    · intro x hx
      rcases List.mem_cons.mp hx with h | h
      · exact h ▸ hI'
      · exact hmem _ h
    · intro i hi
      cases i with
      | zero => simpa using hcnt
      | succ i =>
        have h' := hcnts i (by simpa using hi)
        simp only [List.getD_cons_succ]
        simp only [clockStateOf] at h'
        omega

/-! ### LRU engine: per-reference lemmas -/

/-- Hit branch of `runLRUAlgorithm` (the page is found in the frames). -/
lemma lruProcess_hit (st : LRUState) (p : Int) (h : p ∈ st.frames) :
    lruProcess st p =
      { frames := st.frames,
        recency := (if p ∈ st.recency then st.recency.erase p
                    else st.recency.dropLast) ++ [p],
        page := some p, fault := false,
        hitIndex := ((st.frames.indexOf p : Nat) : Int),
        faults := st.faults, hits := st.hits + 1, evictedPage := none } := by
  unfold lruProcess
  rw [if_pos h]

/-- Fault branch of `runLRUAlgorithm` with an empty frame available. -/
lemma lruProcess_empty (st : LRUState) (p : Int) (h1 : p ∉ st.frames)
    (h2 : (-1 : Int) ∈ st.frames) :
    lruProcess st p =
      { frames := st.frames.set (st.frames.indexOf (-1)) p,
        recency := st.recency ++ [p],
        page := some p, fault := true, hitIndex := -1,
        faults := st.faults + 1, hits := st.hits, evictedPage := none } := by
  unfold lruProcess
  rw [if_neg h1, if_pos h2]

/-- Fault branch of `runLRUAlgorithm` with all frames occupied: the front of
the recency list is evicted. -/
lemma lruProcess_full (st : LRUState) (p : Int) (lru : Int) (t : List Int)
    (h1 : p ∉ st.frames) (h2 : (-1 : Int) ∉ st.frames)
    (h3 : st.recency = lru :: t) :
    lruProcess st p =
      { frames := st.frames.set (st.frames.indexOf lru) p,
        recency := t ++ [p],
        page := some p, fault := true, hitIndex := -1,
        faults := st.faults + 1, hits := st.hits, evictedPage := some lru } := by
  unfold lruProcess
  rw [if_neg h1, if_neg h2, h3]

/-- From the decidable invariant: the recency list counts every non-sentinel
page exactly as often as the frames do. -/
lemma LRUInv.count_eq {n : Nat} {st : LRUState} (hI : LRUInv n st) :
    ∀ q : Int, q ≠ -1 → st.recency.count q = st.frames.count q := by
  obtain ⟨hlen, hnd, hm, hcf, hcr⟩ := hI
  intro q hq
  by_cases hqr : q ∈ st.recency
  · exact hcr q hqr
  · by_cases hqf : q ∈ st.frames
    · exact hcf q hqf hq
    · rw [List.count_eq_zero.mpr hqr, List.count_eq_zero.mpr hqf]

/-- From the invariant: the recency list holds exactly the non-empty frame
entries. -/
lemma LRUInv.mem_recency_iff {n : Nat} {st : LRUState} (hI : LRUInv n st) :
    ∀ q : Int, q ∈ st.recency ↔ q ∈ st.frames ∧ q ≠ -1 := by
  intro q
  constructor
  · intro h
    have hq : q ≠ -1 := fun he => hI.2.2.1 (he ▸ h)
    have := hI.count_eq q hq
    have hpos : 0 < st.recency.count q := List.count_pos_iff.mpr h
    exact ⟨List.count_pos_iff.mp (by omega), hq⟩
  · rintro ⟨hf, hq⟩
    have := hI.count_eq q hq
    have hpos : 0 < st.frames.count q := List.count_pos_iff.mpr hf
    exact List.count_pos_iff.mp (by omega)

/-- From the invariant: the recency list is at most as long as the frames. -/
lemma LRUInv.length_le {n : Nat} {st : LRUState} (hI : LRUInv n st) :
    st.recency.length ≤ n := by
  have hsub : st.recency ⊆ st.frames := fun q hq => ((hI.mem_recency_iff q).mp hq).1
  have h1 := (List.subperm_of_subset hI.2.1 hsub).length_le
  have h2 := hI.1
  omega

/-- Rebuild the decidable invariant from its semantic reading. -/
lemma lruInv_of {n : Nat} {st : LRUState} (hlen : st.frames.length = n)
    (hnd : st.recency.Nodup) (hm : (-1 : Int) ∉ st.recency)
    (hc : ∀ q : Int, q ≠ -1 → st.recency.count q = st.frames.count q) :
    LRUInv n st := by
  refine ⟨hlen, hnd, hm, fun q _ hq => hc q hq, fun q hq => ?_⟩
  have : q ≠ -1 := fun he => hm (he ▸ hq)
  exact hc q this

/-- Preservation of the LRU data-model invariant by one reference, provided
the reference is not the `-1` empty-slot sentinel. -/
lemma lruProcess_inv (n : Nat) (st : LRUState) (p : Int) (hn : 1 ≤ n)
    (hI : LRUInv n st) (hp : p ≠ -1) :
    LRUInv n (lruStateOf (lruProcess st p)) := by
  by_cases hmem : p ∈ st.frames
  · -- hit: the page moves to the back of the recency list
    have hrec : p ∈ st.recency := (hI.mem_recency_iff p).mpr ⟨hmem, hp⟩
    rw [lruProcess_hit st p hmem, if_pos hrec]
    simp only [lruStateOf]
    refine lruInv_of hI.1 ?_ ?_ ?_
    · refine List.nodup_append.mpr ⟨hI.2.1.erase p, List.nodup_singleton p, ?_⟩
      intro q hq hq'
      rcases List.mem_singleton.mp hq' with rfl
      exact absurd ((hI.2.1.mem_erase_iff).mp hq).1 (by simp)
    · intro h
      rcases List.mem_append.mp h with h | h
      · exact hI.2.2.1 (List.mem_of_mem_erase h)
      · exact hp (List.mem_singleton.mp h).symm
    · intro q hq
      rw [List.count_append, List.count_singleton]
      have h2 := hI.count_eq q hq
      by_cases hpq : p = q
      · subst hpq
        have herase : (st.recency.erase p).count p = st.recency.count p - 1 :=
          List.count_erase_self p st.recency
        have h3 : 0 < st.recency.count p := List.count_pos_iff.mpr hrec
        simp only [beq_iff_eq]
        split_ifs <;> omega
      · have herase : (st.recency.erase p).count q = st.recency.count q :=
          List.count_erase_of_ne (fun h => hpq h.symm) st.recency
        simp only [beq_iff_eq]
        split_ifs <;> omega
  · by_cases hemp : (-1 : Int) ∈ st.frames
    · -- fault into the first empty frame
      have hrec : p ∉ st.recency := fun h => hmem ((hI.mem_recency_iff p).mp h).1
      rw [lruProcess_empty st p hmem hemp]
      simp only [lruStateOf]
      have hidx : st.frames.indexOf (-1) < st.frames.length :=
        List.indexOf_lt_length.mpr hemp
      refine lruInv_of (by simpa using hI.1) ?_ ?_ ?_
      · exact List.nodup_append.mpr ⟨hI.2.1, List.nodup_singleton p,
          fun q hq hq' => hrec ((List.mem_singleton.mp hq') ▸ hq)⟩
      · intro h
        rcases List.mem_append.mp h with h | h
        · exact hI.2.2.1 h
        · exact hp (List.mem_singleton.mp h).symm
      · intro q hq
        have hset := count_set_add st.frames (st.frames.indexOf (-1)) p q hidx
        rw [getD_indexOf st.frames (-1) p hemp] at hset
        have h2 := hI.count_eq q hq
        rw [List.count_append, List.count_singleton]
        simp only [beq_iff_eq] at hset ⊢
        split_ifs at hset ⊢ <;> omega
    · -- fault with all frames occupied: evict the recency front
      have hrec : p ∉ st.recency := fun h => hmem ((hI.mem_recency_iff p).mp h).1
      have hfne : st.recency ≠ [] := by
        have h0 : 0 < st.frames.length := by
          have := hI.1
          omega
        have hq0 : st.frames[0] ∈ st.frames := List.getElem_mem h0
        have : st.frames[0] ∈ st.recency :=
          (hI.mem_recency_iff _).mpr ⟨hq0, fun h => hemp (h ▸ hq0)⟩
        exact List.ne_nil_of_mem this
      obtain ⟨lru, t, h3⟩ : ∃ lru t, st.recency = lru :: t := by
        cases h : st.recency with
        | nil => exact absurd h hfne
        | cons a l => exact ⟨a, l, rfl⟩
      have hlmem : lru ∈ st.recency := h3 ▸ List.mem_cons_self lru t
      have hlf : lru ∈ st.frames := ((hI.mem_recency_iff lru).mp hlmem).1
      have hlne : lru ≠ -1 := ((hI.mem_recency_iff lru).mp hlmem).2
      have hidx : st.frames.indexOf lru < st.frames.length :=
        List.indexOf_lt_length.mpr hlf
      have hnd : (lru :: t).Nodup := h3 ▸ hI.2.1
      rw [lruProcess_full st p lru t hmem hemp h3]
      simp only [lruStateOf]
      refine lruInv_of (by simpa using hI.1) ?_ ?_ ?_
      · refine List.nodup_append.mpr ⟨(List.nodup_cons.mp hnd).2, List.nodup_singleton p, ?_⟩
        intro q hq hq'
        rcases List.mem_singleton.mp hq' with rfl
        exact hrec (h3 ▸ List.mem_cons_of_mem lru hq)
      · intro h
        rcases List.mem_append.mp h with h | h
        · exact hI.2.2.1 (h3 ▸ List.mem_cons_of_mem lru h)
        · exact hp (List.mem_singleton.mp h).symm
      · intro q hq
        have hset := count_set_add st.frames (st.frames.indexOf lru) p q hidx
        rw [getD_indexOf st.frames lru p hlf] at hset
        have hcnt : st.recency.count q = st.frames.count q := hI.count_eq q hq
        rw [h3, List.count_cons] at hcnt
        rw [List.count_append, List.count_singleton]
        simp only [beq_iff_eq] at hcnt hset ⊢
        split_ifs at hcnt hset ⊢ <;> omega

/-- Exactly one of the two counters advances per reference, in every branch. -/
lemma lruProcess_counter (st : LRUState) (p : Int) :
    (lruProcess st p).hits + (lruProcess st p).faults = st.hits + st.faults + 1 := by
  by_cases hmem : p ∈ st.frames
  · rw [lruProcess_hit st p hmem]
    dsimp only
    omega
  · by_cases hemp : (-1 : Int) ∈ st.frames
    · rw [lruProcess_empty st p hmem hemp]
      dsimp only
      omega
    · cases h3 : st.recency with
      | nil =>
        unfold lruProcess
        rw [if_neg hmem, if_neg hemp, h3]
        dsimp only
        omega
      | cons lru t =>
        rw [lruProcess_full st p lru t hmem hemp h3]
        dsimp only
        omega

lemma lruRunSteps_length : ∀ (ps : List Int) (st : LRUState),
    (lruRunSteps ps st).length = ps.length := by
  intro ps
  induction ps with
  | nil => intro st; rfl
  | cons p ps ih => intro st; simp [lruRunSteps, ih]

/-- Counter law along an LRU run: the `i`-th snapshot's counters sum to the
starting counters plus the number of references processed. -/
lemma lruRunSteps_counter : ∀ (ps : List Int) (st : LRUState) (d : LRUStep)
    (i : Nat), i < ps.length →
    ((lruRunSteps ps st).getD i d).hits + ((lruRunSteps ps st).getD i d).faults
      = st.hits + st.faults + i + 1 := by
  intro ps
  induction ps with
  | nil => intro st d i hi; simp at hi
  | cons p ps ih =>
    intro st d i hi
    cases i with
    | zero =>
      simpa [lruRunSteps] using lruProcess_counter st p
    | succ i =>
      have h' := ih (lruStateOf (lruProcess st p)) d i (by simpa using hi)
      have hc := lruProcess_counter st p
      have e1 : (lruStateOf (lruProcess st p)).hits = (lruProcess st p).hits := rfl
      have e2 : (lruStateOf (lruProcess st p)).faults = (lruProcess st p).faults := rfl
      rw [e1, e2] at h'
      simp only [lruRunSteps, List.getD_cons_succ]
      omega

/-- Invariant law along an LRU run (for sentinel-free reference sequences). -/
lemma lruRunSteps_inv : ∀ (ps : List Int) (st : LRUState) (n : Nat),
    1 ≤ n → LRUInv n st → (∀ p ∈ ps, p ≠ -1) →
    ∀ s ∈ lruRunSteps ps st, LRUInv n (lruStateOf s) := by
  intro ps
  induction ps with
  | nil => intro st n _ _ _ s hs; simp [lruRunSteps] at hs
  | cons p ps ih =>
    intro st n hn hI hps s hs
    have hp : p ≠ -1 := hps p (List.mem_cons_self p ps)
    have hI' := lruProcess_inv n st p hn hI hp
    rcases List.mem_cons.mp hs with h | h
    · exact h ▸ hI'
    · exact ih (lruStateOf (lruProcess st p)) n hn hI'
        (fun q hq => hps q (List.mem_cons_of_mem p hq)) s h

/-- `evictedPage` is set on a snapshot exactly when the reference faulted and
no frame was empty (under the invariant, so that the recency list cannot be
empty while all frames are occupied). -/
lemma lruProcess_evicted_iff (n : Nat) (st : LRUState) (p : Int)
    (hn : 1 ≤ n) (hI : LRUInv n st) :
    (lruProcess st p).evictedPage.isSome
      ↔ ((lruProcess st p).fault = true ∧ (-1 : Int) ∉ st.frames) := by
  by_cases hmem : p ∈ st.frames
  · rw [lruProcess_hit st p hmem]
    simp
  · by_cases hemp : (-1 : Int) ∈ st.frames
    · rw [lruProcess_empty st p hmem hemp]
      simp [hemp]
    · have hfne : st.recency ≠ [] := by
        have h0 : 0 < st.frames.length := by
          have := hI.1
          omega
        have hq0 : st.frames[0] ∈ st.frames := List.getElem_mem h0
        have : st.frames[0] ∈ st.recency :=
          (hI.mem_recency_iff _).mpr ⟨hq0, fun h => hemp (h ▸ hq0)⟩
        exact List.ne_nil_of_mem this
      obtain ⟨lru, t, h3⟩ : ∃ lru t, st.recency = lru :: t := by
        cases h : st.recency with
        | nil => exact absurd h hfne
        | cons a l => exact ⟨a, l, rfl⟩
      rw [lruProcess_full st p lru t hmem hemp h3]
      simp [hemp]

/-- Chain law for the `evictedPage` attribute along an LRU run: relative to
any head snapshot `s` whose state satisfies the invariant, the `(k+1)`-st
snapshot of `s :: lruRunSteps ps (lruStateOf s)` has `evictedPage` present
exactly when it is a fault and the `k`-th snapshot shows no empty frame. -/
lemma lru_chain_evicted : ∀ (ps : List Int) (s : LRUStep) (n : Nat) (d : LRUStep),
    1 ≤ n → LRUInv n (lruStateOf s) → (∀ p ∈ ps, p ≠ -1) →
    ∀ k, k < ps.length →
      (((s :: lruRunSteps ps (lruStateOf s)).getD (k + 1) d).evictedPage.isSome
        ↔ (((s :: lruRunSteps ps (lruStateOf s)).getD (k + 1) d).fault = true ∧
           (-1 : Int) ∉ ((s :: lruRunSteps ps (lruStateOf s)).getD k d).frames)) := by
  intro ps
  induction ps with
  | nil => intro s n d _ _ _ k hk; simp at hk
  | cons p ps ih =>
    intro s n d hn hI hps k hk
    have hp : p ≠ -1 := hps p (List.mem_cons_self p ps)
    cases k with
    | zero =>
      simp only [lruRunSteps, List.getD_cons_succ, List.getD_cons_zero]
      exact lruProcess_evicted_iff n (lruStateOf s) p hn hI
    | succ k =>
      have hI' := lruProcess_inv n (lruStateOf s) p hn hI hp
      have h' := ih (lruProcess (lruStateOf s) p) n d hn hI'
        (fun q hq => hps q (List.mem_cons_of_mem p hq)) k (by simpa using hk)
      simpa [lruRunSteps, List.getD_cons_succ] using h'

/-- The initial LRU state (all frames empty, empty recency list) satisfies
the invariant. -/
lemma lruInv_init (n : Nat) : LRUInv n (lruStateOf (lruInitialStep n)) := by
  refine lruInv_of ?_ ?_ ?_ ?_ <;>
    simp [lruInitialStep, lruStateOf, List.count_replicate]
  intro q hq
  rw [if_neg]
  simpa [eq_comm] using hq

/-- The initial Clock state satisfies the invariant when `frameCount ≥ 1`. -/
lemma clockInv_init (n : Nat) (hn : 1 ≤ n) :
    ClockInv n (clockStateOf (clockInitialStep n)) := by
  refine ⟨by simp [clockStateOf, clockInitialStep],
    by simp [clockStateOf, clockInitialStep], ?_, ?_⟩
  · intro b hb
    simp only [clockStateOf, clockInitialStep] at hb
    exact Or.inl (List.eq_of_mem_replicate hb)
  · simp only [clockStateOf, clockInitialStep]
    omega

/-- The rounded percentage is within `[0, 100]` whenever `k ≤ total`. -/
lemma ratioOf_bounds (k total : Nat) (h : k ≤ total) :
    0 ≤ ratioOf k total ∧ ratioOf k total ≤ 100 := by
  unfold ratioOf
  by_cases ht : total = 0
  · simp [ht]
  · rw [if_neg ht]
    have htpos : (0 : ℚ) < (total : ℚ) := by
      have : 0 < total := Nat.pos_of_ne_zero ht
      exact_mod_cast this
    have hx0 : (0 : ℚ) ≤ (k : ℚ) / (total : ℚ) * 100 := by positivity
    have hx1 : (k : ℚ) / (total : ℚ) * 100 ≤ 100 := by
      have hd : (k : ℚ) / (total : ℚ) ≤ 1 :=
        (div_le_one htpos).mpr (by exact_mod_cast h)
      nlinarith
    unfold toFixed2
    constructor
    · have hr : (0 : ℤ) ≤ round ((k : ℚ) / (total : ℚ) * 100 * 100) := by
        rw [round_eq]
        have : (0 : ℚ) ≤ (k : ℚ) / (total : ℚ) * 100 * 100 + 1 / 2 := by nlinarith
        exact Int.le_floor.mpr (by push_cast; linarith)
      have : (0 : ℚ) ≤ (round ((k : ℚ) / (total : ℚ) * 100 * 100) : ℚ) := by
        exact_mod_cast hr
      linarith
    · have hr : round ((k : ℚ) / (total : ℚ) * 100 * 100) ≤ 10000 := by
        rw [round_eq]
        by_contra hgt
        push_neg at hgt
        have h1 : (10001 : ℤ) ≤ ⌊(k : ℚ) / (total : ℚ) * 100 * 100 + 1 / 2⌋ := by omega
        have h2 : (10001 : ℚ) ≤ (k : ℚ) / (total : ℚ) * 100 * 100 + 1 / 2 := by
          have := Int.le_floor.mp h1
          push_cast at this
          linarith
        nlinarith
      have h2 : ((round ((k : ℚ) / (total : ℚ) * 100 * 100)) : ℚ) ≤ 10000 := by
        exact_mod_cast hr
      linarith

/-- Head of the recency list exists whenever all frames are occupied (under
the invariant with `frameCount ≥ 1`). -/
lemma recency_cons_of_full (n : Nat) (st : LRUState) (hn : 1 ≤ n)
    (hI : LRUInv n st) (hemp : (-1 : Int) ∉ st.frames) :
    ∃ lru t, st.recency = lru :: t := by
  have hfne : st.recency ≠ [] := by
    have h0 : 0 < st.frames.length := by
      have := hI.1
      omega
    have hq0 : st.frames[0] ∈ st.frames := List.getElem_mem h0
    have : st.frames[0] ∈ st.recency :=
      (hI.mem_recency_iff _).mpr ⟨hq0, fun h => hemp (h ▸ hq0)⟩
    exact List.ne_nil_of_mem this
  cases h : st.recency with
  | nil => exact absurd h hfne
  | cons a l => exact ⟨a, l, rfl⟩

/-- Final counters of an LRU run sum to the number of references. -/
lemma lru_final_counter (pages : List Int) (n : Nat) :
    (runLRUAlgorithm pages n).pageHits + (runLRUAlgorithm pages n).pageFaults
      = pages.length := by
  have e1 : (runLRUAlgorithm pages n).pageHits
      = ((lruRunSteps pages (lruStateOf (lruInitialStep n))).getLastD
          (lruInitialStep n)).hits := rfl
  have e2 : (runLRUAlgorithm pages n).pageFaults
      = ((lruRunSteps pages (lruStateOf (lruInitialStep n))).getLastD
          (lruInitialStep n)).faults := rfl
  rw [e1, e2]
  by_cases hp : pages = []
  · subst hp
    rfl
  · have hppos : 0 < pages.length := List.length_pos.mpr hp
    have hlen : (lruRunSteps pages (lruStateOf (lruInitialStep n))).length
        = pages.length := lruRunSteps_length pages _
    have hne : lruRunSteps pages (lruStateOf (lruInitialStep n)) ≠ [] := by
      intro h
      rw [h] at hlen
      simp at hlen
      omega
    rw [getLastD_eq_getD _ _ hne, hlen]
    have hcnt := lruRunSteps_counter pages (lruStateOf (lruInitialStep n))
      (lruInitialStep n) (pages.length - 1) (by omega)
    have e3 : (lruStateOf (lruInitialStep n)).hits = 0 := rfl
    have e4 : (lruStateOf (lruInitialStep n)).faults = 0 := rfl
    rw [e3, e4] at hcnt
    omega

/-- A fully materialised Clock run: the step list, its counter law, the
returned result object, and the final-counter law, all at once. -/
lemma runClockAlgorithm_packaged (pages : List Int) (n : Nat) (hn : 1 ≤ n) :
    ∃ l, clockRunSteps pages n (clockStateOf (clockInitialStep n)) = some l ∧
      l.length = pages.length ∧
      (∀ i, i < pages.length →
        (l.getD i (clockInitialStep n)).hits +
          (l.getD i (clockInitialStep n)).faults = i + 1) ∧
      runClockAlgorithm pages n =
        some { steps := clockInitialStep n :: l,
               pageFaults := (l.getLastD (clockInitialStep n)).faults,
               pageHits := (l.getLastD (clockInitialStep n)).hits,
               hitRatio := ratioOf (l.getLastD (clockInitialStep n)).hits pages.length,
               missRatio := ratioOf (l.getLastD (clockInitialStep n)).faults pages.length,
               totalSteps := (clockInitialStep n :: l).length } ∧
      (l.getLastD (clockInitialStep n)).hits +
        (l.getLastD (clockInitialStep n)).faults = pages.length := by
  obtain ⟨l, hl, hlen, _, hcnt⟩ :=
    clockRunSteps_spec pages (clockStateOf (clockInitialStep n)) n
      (clockInitialStep n) hn (clockInv_init n hn)
  have e3 : (clockStateOf (clockInitialStep n)).hits = 0 := rfl
  have e4 : (clockStateOf (clockInitialStep n)).faults = 0 := rfl
  rw [e3, e4] at hcnt
  have hcnt' : ∀ i, i < pages.length →
      (l.getD i (clockInitialStep n)).hits +
        (l.getD i (clockInitialStep n)).faults = i + 1 := by
    intro i hi
    have := hcnt i (by omega)
    omega
  refine ⟨l, hl, hlen, hcnt', ?_, ?_⟩
  · unfold runClockAlgorithm
    rw [hl]
  · by_cases hp : pages = []
    · subst hp
      have : l = [] := List.length_eq_zero.mp (by simpa using hlen)
      subst this
      simp [clockInitialStep]
    · have hppos : 0 < pages.length := List.length_pos.mpr hp
      have hlpos : 0 < l.length := by omega
      have hne : l ≠ [] := by
        intro h
        rw [h] at hlpos
        simp at hlpos
      rw [getLastD_eq_getD _ _ hne, hlen]
      have := hcnt' (pages.length - 1) (by omega)
      omega

/-- Claim C4 — the engines do NOT reject `frameCount < 1`.  With
`frameCount = 0` the Clock engine's replacement scan can never find a slot
whatever the fuel (the source loops forever, raising nothing), modelled by
the run evaluating to `none`; and the LRU engine quietly returns a complete
Simulation Result (2 steps, 1 fault) instead of raising a
`ConfigurationError`. -/
theorem frameCount_zero_not_rejected :
    (∀ fuel ptr : Nat, clockScan fuel [] ptr 0 = none) ∧
    runClockAlgorithm [1] 0 = none ∧
    (runLRUAlgorithm [1] 0).totalSteps = 2 ∧
    (runLRUAlgorithm [1] 0).pageFaults = 1 := by
  refine ⟨?_, by decide, by decide, by decide⟩
  intro fuel
  induction fuel with
  | zero => intro ptr; rfl
  | succ fuel ih =>
    intro ptr
    simp [clockScan, ih]

/-- Witness for C4 at concrete fuel and pointer values. -/
theorem frameCount_zero_not_rejected_witness :
    clockScan 5 [] 7 0 = none ∧ runClockAlgorithm [1] 0 = none :=
  ⟨frameCount_zero_not_rejected.1 5 7, frameCount_zero_not_rejected.2.1⟩

/-- Claim C10 — the `-1` empty-slot sentinel lives in the same value space as
page identifiers: referencing page `-1` while frames are still empty is
classified as a Hit by both engines (hit counter incremented, no slot
allocated, no fault recorded). -/
theorem sentinel_reference_misclassified (n : Nat) (hn : 1 ≤ n) :
    (∃ r, runClockAlgorithm [(-1 : Int)] n = some r ∧
       r.pageHits = 1 ∧ r.pageFaults = 0 ∧
       (r.steps.getD 1 (clockInitialStep n)).fault = false ∧
       (r.steps.getD 1 (clockInitialStep n)).hits = 1 ∧
       (r.steps.getD 1 (clockInitialStep n)).frames = List.replicate n (-1)) ∧
    ((runLRUAlgorithm [(-1 : Int)] n).pageHits = 1 ∧
     (runLRUAlgorithm [(-1 : Int)] n).pageFaults = 0 ∧
     ((runLRUAlgorithm [(-1 : Int)] n).steps.getD 1 (lruInitialStep n)).fault = false ∧
     ((runLRUAlgorithm [(-1 : Int)] n).steps.getD 1 (lruInitialStep n)).frames
       = List.replicate n (-1)) := by
  have hmem : (-1 : Int) ∈ List.replicate n (-1) :=
    List.mem_replicate.mpr ⟨by omega, rfl⟩
  constructor
  · have hs : clockProcess n (clockStateOf (clockInitialStep n)) (-1) =
        some { frames := List.replicate n (-1),
               useBits := (List.replicate n 0).set
                 ((List.replicate n (-1 : Int)).indexOf (-1)) 1,
               pointer := 0, page := some (-1), fault := false,
               hitIndex := some (((List.replicate n (-1 : Int)).indexOf (-1) : Nat) : Int),
               faults := 0, hits := 1 } := by
      unfold clockProcess clockStateOf clockInitialStep
      rw [if_pos hmem]
    have hrun : clockRunSteps [(-1 : Int)] n (clockStateOf (clockInitialStep n)) =
        some [{ frames := List.replicate n (-1),
                useBits := (List.replicate n 0).set
                  ((List.replicate n (-1 : Int)).indexOf (-1)) 1,
                pointer := 0, page := some (-1), fault := false,
                hitIndex := some (((List.replicate n (-1 : Int)).indexOf (-1) : Nat) : Int),
                faults := 0, hits := 1 }] := by
      simp only [clockRunSteps, hs]
    have hres : runClockAlgorithm [(-1 : Int)] n =
        some { steps := [clockInitialStep n,
                 { frames := List.replicate n (-1),
                   useBits := (List.replicate n 0).set
                     ((List.replicate n (-1 : Int)).indexOf (-1)) 1,
                   pointer := 0, page := some (-1), fault := false,
                   hitIndex := some (((List.replicate n (-1 : Int)).indexOf (-1) : Nat) : Int),
                   faults := 0, hits := 1 }],
               pageFaults := 0, pageHits := 1,
               hitRatio := ratioOf 1 1, missRatio := ratioOf 0 1,
               totalSteps := 2 } := by
      unfold runClockAlgorithm
      rw [hrun]
      rfl
    exact ⟨_, hres, rfl, rfl, rfl, rfl, rfl⟩
  · have hs : lruProcess (lruStateOf (lruInitialStep n)) (-1) =
        { frames := List.replicate n (-1), recency := [-1],
          page := some (-1), fault := false,
          hitIndex := (((List.replicate n (-1 : Int)).indexOf (-1) : Nat) : Int),
          faults := 0, hits := 1, evictedPage := none } := by
      unfold lruProcess lruStateOf lruInitialStep
      rw [if_pos hmem]
      rfl
    have hrun : lruRunSteps [(-1 : Int)] (lruStateOf (lruInitialStep n)) =
        [{ frames := List.replicate n (-1), recency := [-1],
           page := some (-1), fault := false,
           hitIndex := (((List.replicate n (-1 : Int)).indexOf (-1) : Nat) : Int),
           faults := 0, hits := 1, evictedPage := none }] := by
      simp only [lruRunSteps, hs]
    have e : (runLRUAlgorithm [(-1 : Int)] n).steps
        = lruInitialStep n :: lruRunSteps [(-1 : Int)] (lruStateOf (lruInitialStep n)) := rfl
    have e1 : (runLRUAlgorithm [(-1 : Int)] n).pageHits
        = ((lruRunSteps [(-1 : Int)] (lruStateOf (lruInitialStep n))).getLastD
            (lruInitialStep n)).hits := rfl
    have e2 : (runLRUAlgorithm [(-1 : Int)] n).pageFaults
        = ((lruRunSteps [(-1 : Int)] (lruStateOf (lruInitialStep n))).getLastD
            (lruInitialStep n)).faults := rfl
    rw [e, e1, e2, hrun]
    exact ⟨rfl, rfl, rfl, rfl⟩

/-- Witness for C10 at `frameCount = 3`. -/
theorem sentinel_reference_misclassified_witness :
    (runLRUAlgorithm [(-1 : Int)] 3).pageHits = 1 ∧
    (∃ r, runClockAlgorithm [(-1 : Int)] 3 = some r ∧ r.pageHits = 1) := by
  have h := sentinel_reference_misclassified 3 (by decide)
  obtain ⟨⟨r, hr, h1, _⟩, h2, _⟩ := h
  exact ⟨h2, r, hr, h1⟩

/-- Claim C9 — Clock hit behaviour: when the referenced page is resident at
slot `i` (the first matching slot), the snapshot records a Hit, the use bit
at `i` is set to 1, the pointer and the frame set are unchanged, the hit
counter advances, and no page leaves the frames. -/
theorem clock_hit_preserves_state (n : Nat) (st : ClockState) (p : Int)
    (hI : ClockInv n st) (hmem : p ∈ st.frames) :
    ∃ j, j < n ∧ st.frames.getD j 0 = p ∧ j = st.frames.indexOf p ∧
      clockProcess n st p =
        some { frames := st.frames, useBits := st.useBits.set j 1,
               pointer := st.pointer, page := some p, fault := false,
               hitIndex := some (j : Int), faults := st.faults,
               hits := st.hits + 1 } ∧
      (st.useBits.set j 1).getD j 0 = 1 := by
  have hj : st.frames.indexOf p < st.frames.length :=
    List.indexOf_lt_length.mpr hmem
  have hjn : st.frames.indexOf p < n := by
    have := hI.1
    omega
  refine ⟨st.frames.indexOf p, hjn, getD_indexOf st.frames p 0 hmem, rfl, ?_, ?_⟩
  · unfold clockProcess
    rw [if_pos hmem]
  · refine getD_set_self st.useBits _ 1 0 ?_
    have := hI.2.1
    omega

/-- Witness for C9: a hit on page 2 resident at slot 1 of a two-frame state. -/
theorem clock_hit_preserves_state_witness :
    (clockProcess 2 ⟨[1, 2], [0, 0], 0, 0, 0⟩ 2).isSome = true := by
  obtain ⟨j, _, _, _, hproc, _⟩ :=
    clock_hit_preserves_state 2 ⟨[1, 2], [0, 0], 0, 0, 0⟩ 2 (by decide) (by decide)
  rw [hproc]
  rfl

/-- Claim C1 — Clock fault behaviour: a non-resident reference records a
Fault; the scan places the page at some in-range slot `i`, sets that slot's
use bit to 1, and leaves the pointer at `(i + 1) % frameCount`; moreover `i`
is the slot reached from the starting pointer after `c - 1` advances, where
`c ≤ 2 * frameCount` is the number of inspections (each inspected slot with
use bit 1 was cleared and skipped). -/
theorem clock_fault_pointer_law (n : Nat) (st : ClockState) (p : Int)
    (hn : 1 ≤ n) (hI : ClockInv n st) (hres : p ∉ st.frames) :
    ∃ s i c, clockProcess n st p = some s ∧ s.fault = true ∧
      s.faults = st.faults + 1 ∧ s.hits = st.hits ∧ i < n ∧
      s.frames = st.frames.set i p ∧ s.frames.getD i 0 = p ∧
      s.useBits.getD i 0 = 1 ∧ s.pointer = (i + 1) % n ∧
      1 ≤ c ∧ c ≤ 2 * n ∧ i = (st.pointer + (c - 1)) % n := by
  obtain ⟨i, b, c, hscan, hproc, hi, hb, hbb, hb0, hc1, hcc, hc2n, hidx⟩ :=
    clockProcess_fault_spec n st p hn hI hres
  refine ⟨_, i, c, hproc, rfl, rfl, rfl, hi, rfl, ?_, ?_, rfl, hc1, hc2n, hidx⟩
  · refine getD_set_self st.frames i p 0 ?_
    have := hI.1
    omega
  · refine getD_set_self b i 1 0 ?_
    omega

/-- Witness for C1: page 3 faults in a full two-frame state with both use
bits set. -/
theorem clock_fault_pointer_law_witness :
    (clockProcess 2 ⟨[1, 2], [1, 1], 0, 0, 0⟩ 3).isSome = true := by
  obtain ⟨s, i, c, hproc, _⟩ :=
    clock_fault_pointer_law 2 ⟨[1, 2], [1, 1], 0, 0, 0⟩ 3
      (by decide) (by decide) (by decide)
  rw [hproc]
  rfl

/-- Claim C5 — termination bound of the Clock replacement scan: with fuel
`2 * frameCount` the scan always succeeds, and the number of slot
inspections is at most `count of set bits + 1 ≤ frameCount + 1 ≤
2 * frameCount`. -/
theorem clock_scan_termination (n : Nat) (bits : List Nat) (ptr : Nat)
    (hn : 1 ≤ n) (hlen : bits.length = n) (hptr : ptr < n)
    (hbv : ∀ b ∈ bits, b = 0 ∨ b = 1) :
    ∃ i b c, clockScan (2 * n) bits ptr n = some (i, b, c) ∧
      1 ≤ c ∧ c ≤ bits.count 1 + 1 ∧ c ≤ n + 1 ∧ c ≤ 2 * n := by
  have hcle : bits.count 1 ≤ n := hlen ▸ List.count_le_length 1 bits
  obtain ⟨i, b, c, heq, _, _, _, _, hc1, hcc, _⟩ :=
    clockScan_spec (2 * n) bits ptr n hn hlen hptr hbv (by omega)
  exact ⟨i, b, c, heq, hc1, hcc, by omega, by omega⟩

/-- Witness for C5: a three-frame scan from pointer 1 with all bits set. -/
theorem clock_scan_termination_witness :
    (clockScan (2 * 3) [1, 1, 1] 1 3).isSome = true := by
  obtain ⟨i, b, c, heq, _⟩ :=
    clock_scan_termination 3 [1, 1, 1] 1 (by decide) (by decide) (by decide)
      (by decide)
  rw [heq]
  rfl

/-- Counterexample to claim C2 as stated: with frames `[1, -1]` and recency
`[1]`, referencing `-1` is "resident" (`frames.indexOf(-1) !== -1`), so the
hit path runs — but `-1` has no position in the recency order, and the JS
`splice(recency.indexOf(-1), 1) = splice(-1, 1)` removes the LAST entry
instead, so the resident page 1 is dropped from the recency order rather
than `-1` being moved to the end. -/
theorem lru_hit_recency_counterexample :
    ((runLRUAlgorithm [1, -1] 2).steps.getD 2 (lruInitialStep 2)).fault = false ∧
    ((runLRUAlgorithm [1, -1] 2).steps.getD 1 (lruInitialStep 2)).recency = [1] ∧
    ((runLRUAlgorithm [1, -1] 2).steps.getD 2 (lruInitialStep 2)).recency = [-1] ∧
    ¬ ((runLRUAlgorithm [1, -1] 2).steps.getD 2 (lruInitialStep 2)).recency
        = (((runLRUAlgorithm [1, -1] 2).steps.getD 1 (lruInitialStep 2)).recency.erase
            (-1)) ++ [-1] := by
  decide

/-- Claim C2 amended — the LRU per-reference contract, for references other
than the `-1` sentinel, on any state satisfying the data-model invariant:
* resident page: Hit, page moved from its current recency position to the
  end, frames unchanged, no eviction;
* not resident, an empty slot exists: page placed in the lowest-index empty
  slot, appended to the recency order, no eviction;
* not resident, no empty slot: the recency front is removed and recorded as
  the evicted page, its slot is overwritten, the page is appended. -/
theorem lru_step_behavior (n : Nat) (st : LRUState) (p : Int) (hn : 1 ≤ n)
    (hI : LRUInv n st) (hp : p ≠ -1) :
    (p ∈ st.frames →
      (lruProcess st p).fault = false ∧
      (lruProcess st p).frames = st.frames ∧
      p ∈ st.recency ∧
      (lruProcess st p).recency = st.recency.erase p ++ [p] ∧
      (lruProcess st p).evictedPage = none ∧
      (lruProcess st p).hits = st.hits + 1) ∧
    (p ∉ st.frames → (-1 : Int) ∈ st.frames →
      (lruProcess st p).fault = true ∧
      (∃ j, j < st.frames.length ∧ st.frames.getD j 0 = -1 ∧
        (∀ k, k < j → st.frames.getD k 0 ≠ -1) ∧
        (lruProcess st p).frames = st.frames.set j p) ∧
      (lruProcess st p).recency = st.recency ++ [p] ∧
      (lruProcess st p).evictedPage = none) ∧
    (p ∉ st.frames → (-1 : Int) ∉ st.frames →
      ∃ lru t, st.recency = lru :: t ∧
        (lruProcess st p).fault = true ∧
        (lruProcess st p).evictedPage = some lru ∧
        (∃ j, j < st.frames.length ∧ st.frames.getD j 0 = lru ∧
          (lruProcess st p).frames = st.frames.set j p) ∧
        (lruProcess st p).recency = t ++ [p]) := by
  refine ⟨?_, ?_, ?_⟩
  · intro hmem
    have hrec : p ∈ st.recency := (hI.mem_recency_iff p).mpr ⟨hmem, hp⟩
    rw [lruProcess_hit st p hmem, if_pos hrec]
    exact ⟨rfl, rfl, hrec, rfl, rfl, rfl⟩
  · intro hmem hemp
    rw [lruProcess_empty st p hmem hemp]
    refine ⟨rfl, ?_, rfl, rfl⟩
    refine ⟨st.frames.indexOf (-1), List.indexOf_lt_length.mpr hemp,
      getD_indexOf st.frames (-1) 0 hemp, ?_, rfl⟩
    intro k hk
    exact getD_lt_indexOf_ne st.frames (-1) k 0 hk
  · intro hmem hemp
    obtain ⟨lru, t, h3⟩ := recency_cons_of_full n st hn hI hemp
    have hlmem : lru ∈ st.recency := h3 ▸ List.mem_cons_self lru t
    have hlf : lru ∈ st.frames := ((hI.mem_recency_iff lru).mp hlmem).1
    rw [lruProcess_full st p lru t hmem hemp h3]
    exact ⟨lru, t, h3, rfl, rfl,
      ⟨st.frames.indexOf lru, List.indexOf_lt_length.mpr hlf,
        getD_indexOf st.frames lru 0 hlf, rfl⟩, rfl⟩

/-- Witness for the amended C2: a hit on page 1 in state frames `[1, 2]`,
recency `[2, 1]`. -/
theorem lru_step_behavior_witness :
    (lruProcess ⟨[1, 2], [2, 1], 0, 0⟩ 1).fault = false ∧
    (lruProcess ⟨[1, 2], [2, 1], 0, 0⟩ 1).recency = [2, 1] := by
  have h := lru_step_behavior 2 ⟨[1, 2], [2, 1], 0, 0⟩ 1
    (by decide) (by decide) (by decide)
  obtain ⟨hfault, -, -, hrec, -⟩ := h.1 (by decide)
  exact ⟨hfault, by rw [hrec]; decide⟩

/-- Counterexample to claim C7 as stated: after references `[1, -1]` with two
frames, the recorded recency order is `[-1]`, which misses the resident page
1 and contains the sentinel `-1`, so it is not a permutation of the non-empty
frame entries. -/
theorem lru_residency_counterexample :
    (1 : Int) ∈ ((runLRUAlgorithm [1, -1] 2).steps.getD 2 (lruInitialStep 2)).frames ∧
    (1 : Int) ≠ -1 ∧
    (1 : Int) ∉ ((runLRUAlgorithm [1, -1] 2).steps.getD 2 (lruInitialStep 2)).recency ∧
    (-1 : Int) ∈ ((runLRUAlgorithm [1, -1] 2).steps.getD 2 (lruInitialStep 2)).recency := by
  decide

/-- Claim C7 amended — the LRU residency law for reference sequences that
avoid the `-1` sentinel: at every recorded step, the recency order is
duplicate-free, contains exactly the non-empty frame entries, and is no
longer than `frameCount`. -/
theorem lru_residency_law (pages : List Int) (n : Nat) (hn : 1 ≤ n)
    (hps : ∀ p ∈ pages, p ≠ -1) :
    ∀ s ∈ (runLRUAlgorithm pages n).steps,
      s.recency.Nodup ∧
      (∀ q : Int, q ∈ s.recency ↔ q ∈ s.frames ∧ q ≠ -1) ∧
      s.recency.length ≤ n := by
  intro s hs
  have hsteps : (runLRUAlgorithm pages n).steps
      = lruInitialStep n :: lruRunSteps pages (lruStateOf (lruInitialStep n)) := rfl
  rw [hsteps] at hs
  have hI : LRUInv n (lruStateOf s) := by
    rcases List.mem_cons.mp hs with h | h
    · exact h ▸ lruInv_init n
    · exact lruRunSteps_inv pages _ n hn (lruInv_init n) hps s h
  have e : (lruStateOf s).recency = s.recency := rfl
  have e2 : (lruStateOf s).frames = s.frames := rfl
  refine ⟨?_, ?_, ?_⟩
  · have h := hI.2.1
    rwa [e] at h
  · intro q
    have h := hI.mem_recency_iff q
    rwa [e, e2] at h
  · have h := hI.length_le
    rwa [e] at h

/-- Witness for the amended C7 on the run `[1, 2, 1]` with two frames. -/
theorem lru_residency_law_witness :
    ((runLRUAlgorithm [1, 2, 1] 2).steps.getD 3 (lruInitialStep 2)).recency.Nodup := by
  have hmem : ((runLRUAlgorithm [1, 2, 1] 2).steps.getD 3 (lruInitialStep 2))
      ∈ (runLRUAlgorithm [1, 2, 1] 2).steps := by decide
  exact (lru_residency_law [1, 2, 1] 2 (by decide) (by decide) _ hmem).1

/-- Counterexample to claim C3 as stated: under Clock with two frames and
references `[1, 2, 3]`, the step for reference 3 is a fault that overwrites
slot 0, which held page 1 — yet the Clock snapshot carries no evicted-page
attribute (reading it yields the absent value, not page 1). -/
theorem clock_step_has_no_evicted_page :
    (runClockAlgorithm [1, 2, 3] 2).map
        (fun r => ((r.steps.getD 3 (clockInitialStep 2)).fault,
                   (r.steps.getD 2 (clockInitialStep 2)).frames,
                   (r.steps.getD 3 (clockInitialStep 2)).frames,
                   ClockStep.evictedPage (r.steps.getD 3 (clockInitialStep 2))))
      = some (true, [1, 2], [3, 2], (none : Option Int)) ∧
    (none : Option Int) ≠ some 1 := by
  constructor
  · decide
  · decide

/-- Claim C3 amended — the evicted-page attribute in the recorded steps:
* under LRU (for sentinel-free references) `evictedPage` is present exactly
  when the step is a fault and the previous step showed no empty frame — so
  it is absent on hits, on empty-slot faults and on the initial step — and on
  the run `[1, 2, 3]` with two frames the step for reference 3 records
  evicted page 1;
* under Clock, snapshots carry no evicted-page attribute at all: reading it
  yields the absent value on every step. -/
theorem evicted_page_amended (pages : List Int) (n : Nat) (hn : 1 ≤ n)
    (hps : ∀ p ∈ pages, p ≠ -1) :
    (∀ k, k < pages.length →
      ((((runLRUAlgorithm pages n).steps.getD (k + 1) (lruInitialStep n)).evictedPage.isSome)
        ↔ ((((runLRUAlgorithm pages n).steps.getD (k + 1) (lruInitialStep n)).fault = true) ∧
           (-1 : Int) ∉ ((runLRUAlgorithm pages n).steps.getD k (lruInitialStep n)).frames))) ∧
    ((runLRUAlgorithm pages n).steps.getD 0 (lruInitialStep n)).evictedPage = none ∧
    ((runLRUAlgorithm [1, 2, 3] 2).steps.getD 3 (lruInitialStep 2)).evictedPage = some 1 ∧
    (∀ s : ClockStep, ClockStep.evictedPage s = none) := by
  refine ⟨?_, rfl, by decide, fun s => rfl⟩
  intro k hk
  have hsteps : (runLRUAlgorithm pages n).steps
      = lruInitialStep n :: lruRunSteps pages (lruStateOf (lruInitialStep n)) := rfl
  rw [hsteps]
  exact lru_chain_evicted pages (lruInitialStep n) n (lruInitialStep n) hn
    (lruInv_init n) hps k hk

/-- Witness for the amended C3 on the run `[1, 2, 3]` with two frames: the
third step's eviction is recorded, in accordance with the iff. -/
theorem evicted_page_amended_witness :
    ((runLRUAlgorithm [1, 2, 3] 2).steps.getD 3 (lruInitialStep 2)).evictedPage.isSome := by
  have h := evicted_page_amended [1, 2, 3] 2 (by decide) (by decide)
  exact (h.1 2 (by decide)).mpr (by decide)

/-- Claim C6 — step-count and counter consistency for both engines: the run
records `n + 1` steps for `n` references, the initial step carries zero
counters, and at every step index the cumulative hits plus cumulative faults
equal the index. -/
theorem step_counter_consistency (pages : List Int) (n : Nat) (hn : 1 ≤ n) :
    ((runLRUAlgorithm pages n).steps.length = pages.length + 1 ∧
     ((runLRUAlgorithm pages n).steps.getD 0 (lruInitialStep n)).hits = 0 ∧
     ((runLRUAlgorithm pages n).steps.getD 0 (lruInitialStep n)).faults = 0 ∧
     (∀ i, i ≤ pages.length →
       ((runLRUAlgorithm pages n).steps.getD i (lruInitialStep n)).hits +
         ((runLRUAlgorithm pages n).steps.getD i (lruInitialStep n)).faults = i)) ∧
    (∃ r, runClockAlgorithm pages n = some r ∧
      r.steps.length = pages.length + 1 ∧
      (r.steps.getD 0 (clockInitialStep n)).hits = 0 ∧
      (r.steps.getD 0 (clockInitialStep n)).faults = 0 ∧
      (∀ i, i ≤ pages.length →
        (r.steps.getD i (clockInitialStep n)).hits +
          (r.steps.getD i (clockInitialStep n)).faults = i)) := by
  constructor
  · have hsteps : (runLRUAlgorithm pages n).steps
        = lruInitialStep n :: lruRunSteps pages (lruStateOf (lruInitialStep n)) := rfl
    rw [hsteps]
    refine ⟨by simp [lruRunSteps_length], rfl, rfl, ?_⟩
    intro i hi
    cases i with
    | zero => rfl
    | succ i =>
      simp only [List.getD_cons_succ]
      have h := lruRunSteps_counter pages (lruStateOf (lruInitialStep n))
        (lruInitialStep n) i (by
          have := lruRunSteps_length pages (lruStateOf (lruInitialStep n))
          omega)
      have e3 : (lruStateOf (lruInitialStep n)).hits = 0 := rfl
      have e4 : (lruStateOf (lruInitialStep n)).faults = 0 := rfl
      rw [e3, e4] at h
      omega
  · obtain ⟨l, hl, hlen, hcnt, hres, hfin⟩ := runClockAlgorithm_packaged pages n hn
    refine ⟨_, hres, ?_, rfl, rfl, ?_⟩
    · simp [hlen]
    · intro i hi
      cases i with
      | zero => rfl
      | succ i =>
        simp only [List.getD_cons_succ]
        have h := hcnt i (by omega)
        omega

/-- Witness for C6 on the run `[1, 2, 1]` with two frames. -/
theorem step_counter_consistency_witness :
    ((runLRUAlgorithm [1, 2, 1] 2).steps.getD 3 (lruInitialStep 2)).hits +
      ((runLRUAlgorithm [1, 2, 1] 2).steps.getD 3 (lruInitialStep 2)).faults = 3 :=
  (step_counter_consistency [1, 2, 1] 2 (by decide)).1.2.2.2 3 (by decide)

/-- Claim C8 — the final ratios: each engine's `hitRatio` and `missRatio`
are the percentage of hits resp. faults rounded to two decimal places, both
lie in `[0, 100]`, and both are the literal `0` on an empty reference
sequence. -/
theorem final_ratio_bounds (pages : List Int) (n : Nat) (hn : 1 ≤ n) :
    ((runLRUAlgorithm pages n).hitRatio
        = ratioOf (runLRUAlgorithm pages n).pageHits pages.length ∧
     (runLRUAlgorithm pages n).missRatio
        = ratioOf (runLRUAlgorithm pages n).pageFaults pages.length ∧
     (pages ≠ [] → (runLRUAlgorithm pages n).hitRatio
        = toFixed2 (((runLRUAlgorithm pages n).pageHits : ℚ)
            / (pages.length : ℚ) * 100)) ∧
     0 ≤ (runLRUAlgorithm pages n).hitRatio ∧
     (runLRUAlgorithm pages n).hitRatio ≤ 100 ∧
     0 ≤ (runLRUAlgorithm pages n).missRatio ∧
     (runLRUAlgorithm pages n).missRatio ≤ 100 ∧
     (pages = [] → (runLRUAlgorithm pages n).hitRatio = 0 ∧
       (runLRUAlgorithm pages n).missRatio = 0)) ∧
    (∃ r, runClockAlgorithm pages n = some r ∧
      r.hitRatio = ratioOf r.pageHits pages.length ∧
      r.missRatio = ratioOf r.pageFaults pages.length ∧
      (pages ≠ [] → r.hitRatio
        = toFixed2 ((r.pageHits : ℚ) / (pages.length : ℚ) * 100)) ∧
      0 ≤ r.hitRatio ∧ r.hitRatio ≤ 100 ∧
      0 ≤ r.missRatio ∧ r.missRatio ≤ 100 ∧
      (pages = [] → r.hitRatio = 0 ∧ r.missRatio = 0)) := by
  constructor
  · have hfin := lru_final_counter pages n
    have hb1 := ratioOf_bounds (runLRUAlgorithm pages n).pageHits pages.length
      (by omega)
    have hb2 := ratioOf_bounds (runLRUAlgorithm pages n).pageFaults pages.length
      (by omega)
    refine ⟨rfl, rfl, ?_, hb1.1, hb1.2, hb2.1, hb2.2, ?_⟩
    · intro hne
      have : (runLRUAlgorithm pages n).hitRatio
          = ratioOf (runLRUAlgorithm pages n).pageHits pages.length := rfl
      rw [this]
      unfold ratioOf
      rw [if_neg (by simpa [List.length_eq_zero] using hne)]
    · intro he
      subst he
      exact ⟨rfl, rfl⟩
  · obtain ⟨l, hl, hlen, hcnt, hres, hfin⟩ := runClockAlgorithm_packaged pages n hn
    refine ⟨_, hres, rfl, rfl, ?_, ?_, ?_, ?_, ?_, ?_⟩
    · intro hne
      unfold ratioOf
      rw [if_neg (by simpa [List.length_eq_zero] using hne)]
    · exact (ratioOf_bounds _ pages.length (by omega)).1
    · exact (ratioOf_bounds _ pages.length (by omega)).2
    · exact (ratioOf_bounds _ pages.length (by omega)).1
    · exact (ratioOf_bounds _ pages.length (by omega)).2
    · intro he
      subst he
      exact ⟨rfl, rfl⟩

/-- Witness for C8 on the run `[1, 2, 3]` with two frames. -/
theorem final_ratio_bounds_witness :
    0 ≤ (runLRUAlgorithm [1, 2, 3] 2).hitRatio ∧
    (runLRUAlgorithm [1, 2, 3] 2).missRatio ≤ 100 := by
  have h := final_ratio_bounds [1, 2, 3] 2 (by decide)
  exact ⟨h.1.2.2.2.1, h.1.2.2.2.2.2.2.1⟩
